import Mathlib

/-!
# simple_blockchain: a hash-chained ledger of blood-donation records

A shallow embedding of `main.go` and the properties of its ledger.

Conventions of the embedding.

* A Go `string` is a sequence of bytes (`GoString`); nothing forces it to be
  valid UTF-8.
* Go `int` is the 64-bit two's-complement integer; `+` wraps (`wrapInt`).
* The two library digests (`crypto/sha256`, `crypto/md5`) are parameters of the
  development (`Hashes`); every other library routine the program calls
  (`fmt.Sprintf "%d"`, `hex.EncodeToString`, `fmt.Sprintf "%x"`,
  `json.Marshal` on a `BloodUnit`) is modelled concretely.
* `time.Now().String()` is an input: every function that reads the clock
  takes the string it reads as the argument `now`.
* A function that receives a pointer returns, next to its result, the state
  of the pointee after the call.
* A run-time panic is the result `none`.
-/

namespace SimpleBlockchain

/-! ## Strings and integers -/

/-- One byte. -/
abbrev Byte := Fin 256

/-- Go `string`: an immutable sequence of bytes. -/
abbrev GoString := List Byte

/-- The Go string of an ASCII literal. -/
def lit (s : String) : GoString :=
  s.toList.map (fun c => Fin.ofNat c.toNat)

/-- Two's-complement wrap-around of a mathematical integer into Go's 64-bit `int`. -/
def wrapInt (x : Int) : Int :=
  (x + 2 ^ 63) % 2 ^ 64 - 2 ^ 63

/-- Decimal digits of a natural number, as bytes. -/
def natDecimal (n : Nat) : GoString :=
  (Nat.toDigits 10 n).map (fun c => Fin.ofNat c.toNat)

/-- Verb `%d` of `fmt.Sprintf` on an `int`. -/
def fmtD : Int → GoString
  | Int.ofNat n => natDecimal n
  | Int.negSucc n => (45 : Byte) :: natDecimal (n + 1)

/-- Entry `i` of the table `"0123456789abcdef"`. -/
def hextable (i : Nat) : Byte :=
  if i < 10 then Fin.ofNat (48 + i) else Fin.ofNat (87 + i)

/-- Function `hex.EncodeToString` (and verb `%x` on a byte slice): two lowercase
hexadecimal digits per byte, high nibble first. -/
def hexEncode (src : List Byte) : GoString :=
  src.flatMap (fun v => [hextable (v.val / 16), hextable (v.val % 16)])

/-! ## `unicode/utf8` and `encoding/json` on strings -/

/-- Table `first` of `unicode/utf8`: information about the first byte of a
UTF-8 sequence (`0xF0` ASCII, `0xF1` invalid, otherwise the accept-range index
in the high nibble and the sequence length in the low one). -/
def utf8First (b : Nat) : Nat :=
  if b < 0x80 then 0xF0
  else if b < 0xC2 then 0xF1
  else if b < 0xE0 then 0x02
  else if b = 0xE0 then 0x13
  else if b < 0xED then 0x03
  else if b = 0xED then 0x23
  else if b < 0xF0 then 0x03
  else if b = 0xF0 then 0x34
  else if b < 0xF4 then 0x04
  else if b = 0xF4 then 0x44
  else 0xF1

/-- Table `acceptRanges` of `unicode/utf8`: the admissible range of the second
byte. -/
def acceptRange (i : Nat) : Nat × Nat :=
  match i with
  | 0 => (0x80, 0xBF)
  | 1 => (0xA0, 0xBF)
  | 2 => (0x80, 0x9F)
  | 3 => (0x90, 0xBF)
  | 4 => (0x80, 0x8F)
  | _ => (0, 0)

/-- Function `utf8.DecodeRuneInString`: the first rune of `s` and its width in
bytes; an invalid or truncated encoding gives `(0xFFFD, 1)`, the empty string
`(0xFFFD, 0)`. -/
def decodeRune (s : List Nat) : Nat × Nat :=
  match s with
  | [] => (0xFFFD, 0)
  | s0 :: t0 =>
    let x := utf8First s0
    if x ≥ 0xF0 then
      (if x = 0xF0 then s0 else 0xFFFD, 1)
    else
      let sz := x % 8
      let accept := acceptRange (x / 16)
      if s.length < sz then (0xFFFD, 1)
      else
        match t0 with
        | [] => (0xFFFD, 1)
        | s1 :: t1 =>
          if s1 < accept.1 ∨ accept.2 < s1 then (0xFFFD, 1)
          else if sz ≤ 2 then ((s0 % 32) * 64 + s1 % 64, 2)
          else
            match t1 with
            | [] => (0xFFFD, 1)
            | s2 :: t2 =>
              if s2 < 0x80 ∨ 0xBF < s2 then (0xFFFD, 1)
              else if sz ≤ 3 then ((s0 % 16) * 4096 + (s1 % 64) * 64 + s2 % 64, 3)
              else
                match t2 with
                | [] => (0xFFFD, 1)
                | s3 :: _ =>
                  if s3 < 0x80 ∨ 0xBF < s3 then (0xFFFD, 1)
                  else ((s0 % 8) * 262144 + (s1 % 64) * 4096 + (s2 % 64) * 64 + s3 % 64, 4)

/-- Table `htmlSafeSet` of `encoding/json`: the ASCII bytes written as they
are; everything from the space on except the double quote, the ampersand, the
angle brackets and the backslash. -/
def htmlSafe (b : Nat) : Bool :=
  decide (0x20 ≤ b) && decide (b < 0x80) &&
    !(b = 0x22 || b = 0x26 || b = 0x3C || b = 0x3E || b = 0x5C)

/-- The escape `encoding/json` writes for an ASCII byte outside `htmlSafeSet`. -/
def escapeASCII (b : Byte) : GoString :=
  if b.val = 0x5C ∨ b.val = 0x22 then [0x5C, b]
  else if b.val = 0x08 then lit "\\b"
  else if b.val = 0x0C then lit "\\f"
  else if b.val = 0x0A then lit "\\n"
  else if b.val = 0x0D then lit "\\r"
  else if b.val = 0x09 then lit "\\t"
  else lit "\\u00" ++ [hextable (b.val / 16), hextable (b.val % 16)]

/-- The loop that writes a string in `encoding/json` (HTML escaping on),
without the surrounding quotes.  A byte that does not start a valid UTF-8
sequence is replaced by the character U+FFFD, written as its three raw bytes
`EF BF BD`.  The first argument counts the bytes still to skip because they
belong to a rune already written. -/
def appendStringLoop : Nat → List Byte → GoString
  | _, [] => []
  | k + 1, _ :: rest => appendStringLoop k rest
  | 0, b :: rest =>
    if b.val < 0x80 then
      (if htmlSafe b.val then [b] else escapeASCII b) ++ appendStringLoop 0 rest
    else
      let chunk := (b :: rest).take 4
      let r := decodeRune (chunk.map Fin.val)
      if r.1 = 0xFFFD ∧ r.2 = 1 then
        [0xEF, 0xBF, 0xBD] ++ appendStringLoop 0 rest
      else if r.1 = 0x2028 ∨ r.1 = 0x2029 then
        (lit "\\u202" ++ [hextable (r.1 % 16)]) ++ appendStringLoop (r.2 - 1) rest
      else
        chunk.take r.2 ++ appendStringLoop (r.2 - 1) rest

/-- How `json.Marshal` writes a Go string: quoted, escaped, and coerced to
valid UTF-8 (each invalid byte becomes the character U+FFFD, bytes
`EF BF BD`). -/
def jsonString (s : GoString) : GoString :=
  (0x22 : Byte) :: appendStringLoop 0 s ++ [(0x22 : Byte)]

/-- How `json.Marshal` writes a Go `bool`. -/
def jsonBool (b : Bool) : GoString :=
  if b then lit "true" else lit "false"

/-! ## The data model -/

/-- BloodUnit represents a unit of blood in the blockchain. -/
structure BloodUnit where
  UnitID : GoString
  DonorID : GoString
  BloodType : GoString
  DonationDate : GoString
  ExpiryDate : GoString
  Status : GoString
  RecipientID : GoString
  IsGenesis : Bool
  deriving DecidableEq, Repr

/-- Blocks represents a block in the blockchain. -/
structure Blocks where
  Pos : Int
  Data : BloodUnit
  Hash : GoString
  TimeStamp : GoString
  PrevHash : GoString
  deriving DecidableEq, Repr

/-- Blockchain is a series of validated Blocks. -/
structure Blockchain where
  blocks : List Blocks
  deriving DecidableEq, Repr

/-- The zero value `BloodUnit{}`. -/
def BloodUnit.zero : BloodUnit :=
  { UnitID := [], DonorID := [], BloodType := [], DonationDate := [],
    ExpiryDate := [], Status := [], RecipientID := [], IsGenesis := false }

/-- The zero value `Blocks{}`. -/
def Blocks.zero : Blocks :=
  { Pos := 0, Data := BloodUnit.zero, Hash := [], TimeStamp := [], PrevHash := [] }

/-- Function `json.Marshal` on a `BloodUnit`: the fields in declaration order
under their `json` tags, without white space. -/
def marshalBloodUnit (u : BloodUnit) : GoString :=
  lit "\x7b\"unit_id\":" ++ jsonString u.UnitID ++
  lit ",\"donor_id\":" ++ jsonString u.DonorID ++
  lit ",\"blood_type\":" ++ jsonString u.BloodType ++
  lit ",\"donation_date\":" ++ jsonString u.DonationDate ++
  lit ",\"expiry_date\":" ++ jsonString u.ExpiryDate ++
  lit ",\"status\":" ++ jsonString u.Status ++
  lit ",\"recipient_id\":" ++ jsonString u.RecipientID ++
  lit ",\"isgenesis\":" ++ jsonBool u.IsGenesis ++ lit "\x7d"

/-- The library digests the program calls: `sha256.New` / `Write` / `Sum(nil)`
and `md5.New` / `WriteString` / `Sum(nil)`, each as a function from the bytes
written to the digest bytes. -/
structure Hashes where
  sha256Sum : GoString → List Byte
  md5Sum : GoString → List Byte

/-! ## The ledger -/

/-- The string `GenerateHash` feeds to SHA-256:
`fmt.Sprintf("%d%s%s%s", b.Pos, b.TimeStamp, string(bytes), b.PrevHash)`. -/
def hashInput (b : Blocks) : GoString :=
  fmtD b.Pos ++ b.TimeStamp ++ marshalBloodUnit b.Data ++ b.PrevHash

/-- GenerateHash generates a hash for the block (the block after the call). -/
def GenerateHash (H : Hashes) (b : Blocks) : Blocks :=
  let bytes := marshalBloodUnit b.Data
  let data := fmtD b.Pos ++ b.TimeStamp ++ bytes ++ b.PrevHash
  { b with Hash := hexEncode (H.sha256Sum data) }

/-- validateHash checks whether the hash of the block is correct; returns the
verdict and the block after the call. -/
def validateHash (H : Hashes) (b : Blocks) (hash : GoString) : Bool × Blocks :=
  let b1 := GenerateHash H b
  if b1.Hash ≠ hash then (false, b1) else (true, b1)

/-- validBlock validates the block with respect to the previous block; returns
the verdict, the candidate after the call and the previous block after the
call.  The two blocks are distinct objects, as at the call in `AddBlock`. -/
def validBlock (H : Hashes) (block prevBlock : Blocks) : Bool × Blocks × Blocks :=
  if prevBlock.Hash ≠ block.PrevHash then (false, block, prevBlock)
  else
    let r := validateHash H block block.Hash
    if !r.1 then (false, r.2, prevBlock)
    else if wrapInt (prevBlock.Pos + 1) ≠ r.2.Pos then (false, r.2, prevBlock)
    else (true, r.2, prevBlock)

/-- CreateBlock creates a new block using previous block and transaction data;
returns the previous block after the call and the new block. -/
def CreateBlock (H : Hashes) (prevBlock : Blocks) (info : BloodUnit) (now : GoString) :
    Blocks × Blocks :=
  let block := Blocks.zero
  let block := { block with Pos := wrapInt (prevBlock.Pos + 1) }
  let block := { block with Data := info }
  let block := { block with PrevHash := prevBlock.Hash }
  let block := { block with TimeStamp := now }
  let block := GenerateHash H block
  (prevBlock, block)

/-- GenesisBlock creates the first block in the blockchain. -/
def GenesisBlock (H : Hashes) (now : GoString) : Blocks :=
  (CreateBlock H Blocks.zero { BloodUnit.zero with IsGenesis := true } now).2

/-- NewBlockchain creates a new Blockchain with initialized blocks. -/
def NewBlockchain (H : Hashes) (now : GoString) : Blockchain :=
  { blocks := [GenesisBlock H now] }

/-- AddBlock adds a new block to the blockchain.  The read of the last block
panics on an empty ledger (`none`); otherwise the ledger after the call is
returned, the last old block being written back in the state the two callees
leave it in. -/
def AddBlock (H : Hashes) (bc : Blockchain) (info : BloodUnit) (now : GoString) :
    Option Blockchain :=
  match bc.blocks.getLast? with
  | none => none
  | some prevBlock =>
    let c := CreateBlock H prevBlock info now
    let v := validBlock H c.2 c.1
    let old := bc.blocks.dropLast ++ [v.2.2]
    if v.1 then some { blocks := old ++ [v.2.1] }
    else some { blocks := old }

/-- The ledger after `NewBlockchain` (clock reading `t0`) and then one
`AddBlock` per entry of `calls` (record and clock reading), in order. -/
def buildChain (H : Hashes) (t0 : GoString) (calls : List (BloodUnit × GoString)) :
    Option Blockchain :=
  calls.foldl (fun acc c => acc.bind (fun bc => AddBlock H bc c.1 c.2))
    (some (NewBlockchain H t0))

/-! ## The HTTP handler -/

/-- What a handler writes with `c.IndentedJSON`: the `gin.H` error object or a
record. -/
inductive Body where
  | error (msg : GoString)
  | unit (u : BloodUnit)
  deriving DecidableEq, Repr

/-- The HTTP answer of a handler: status code and body. -/
structure Response where
  status : Nat
  body : Body
  deriving DecidableEq, Repr

/-- Constant `http.StatusBadRequest`. -/
def StatusBadRequest : Nat := 400

/-- Constant `http.StatusCreated`. -/
def StatusCreated : Nat := 201

/-- The identifier `CreateBloodEntry` computes: `%x` of the MD5 of
`DonorID + BloodType + DonationDate`. -/
def unitIDOf (H : Hashes) (u : BloodUnit) : GoString :=
  let uniqueString := u.DonorID ++ u.BloodType ++ u.DonationDate
  hexEncode (H.md5Sum uniqueString)

/-- CreateBloodEntry adds a new blood unit to the blockchain.  `bound` is the
outcome of `c.BindJSON(&bloodUnit)`: `none` for an error, otherwise the record
decoded from the request body.  Returns the answer written and the global
ledger after the call; `none` is a panic inside `AddBlock`. -/
def CreateBloodEntry (H : Hashes) (BlockChain : Blockchain) (bound : Option BloodUnit)
    (now : GoString) : Option (Response × Blockchain) :=
  match bound with
  | none =>
    some ({ status := StatusBadRequest, body := Body.error (lit "bad request") }, BlockChain)
  | some bloodUnit =>
    let bloodUnit := { bloodUnit with UnitID := unitIDOf H bloodUnit }
    match AddBlock H BlockChain bloodUnit now with
    | none => none
    | some bc => some ({ status := StatusCreated, body := Body.unit bloodUnit }, bc)

/-- A pair of digests for evaluating the definitions on concrete inputs: both
return the bytes written (an injective choice). -/
def plainHashes : Hashes :=
  { sha256Sum := fun s => s, md5Sum := fun s => s }


/-! ## Predicates and sample inputs -/

/-- The link `AddBlock` sets up between a block `b` and its predecessor `p`. -/
def Adjacent (p b : Blocks) : Prop :=
  b.PrevHash = p.Hash ∧ b.Pos = wrapInt (p.Pos + 1)

/-- A record used to evaluate the operations on concrete input. -/
def sampleUnit : BloodUnit :=
  { BloodUnit.zero with DonorID := lit "D1", BloodType := lit "O+",
                        DonationDate := lit "2024-01-01", Status := lit "Donated" }

/-- A second submission of the sample donation: same donor, blood type and
donation date, everything else different. -/
def sampleUnitAgain : BloodUnit :=
  { sampleUnit with UnitID := lit "mine", Status := lit "Used", RecipientID := lit "R7",
                    ExpiryDate := lit "2024-02-12", IsGenesis := true }

/-- A record with a status outside the four listed ones and with an empty blood
type and donation date. -/
def bogusUnit : BloodUnit :=
  { BloodUnit.zero with DonorID := lit "D1", Status := lit "Bogus" }

/-- The string `CreateBloodEntry` writes to the MD5 digest:
`bloodUnit.DonorID + bloodUnit.BloodType + bloodUnit.DonationDate`. -/
def uniqueStringOf (u : BloodUnit) : GoString :=
  u.DonorID ++ u.BloodType ++ u.DonationDate

/-- The bytes `0`..`9` and `a`..`f`. -/
def isLowerHex (b : Byte) : Bool :=
  (decide (48 ≤ b.val) && decide (b.val ≤ 57)) || (decide (97 ≤ b.val) && decide (b.val ≤ 102))

/-- A pair of digests with the output sizes of the real ones (32 and 16
bytes), for evaluating the definitions on concrete inputs: the bytes written,
cut or padded with zeros to the size. -/
def sizedHashes : Hashes :=
  { sha256Sum := fun s => (s ++ List.replicate 32 0).take 32,
    md5Sum := fun s => (s ++ List.replicate 16 0).take 16 }

/-- A donation of donor `D1A` with blood type `B+`. -/
def donorD1A : BloodUnit :=
  { BloodUnit.zero with DonorID := lit "D1A", BloodType := lit "B+",
                        DonationDate := lit "2024-01-01" }

/-- A donation of donor `D1` with blood type `AB+`, on the same day. -/
def donorD1 : BloodUnit :=
  { BloodUnit.zero with DonorID := lit "D1", BloodType := lit "AB+",
                        DonationDate := lit "2024-01-01" }

/-- A candidate for the position after the zero block whose stored hash is not
the digest of its fields. -/
def staleCandidate : Blocks :=
  { Blocks.zero with Pos := 1, Data := sampleUnit, Hash := lit "stale", TimeStamp := lit "t1" }

/-! ## Basic facts about the operations -/

theorem wrapInt_wrapInt_add_one (x : Int) : wrapInt (wrapInt x + 1) = wrapInt (x + 1) := by
  unfold wrapInt
  omega

theorem wrapInt_of_range (x : Int) (h0 : -2 ^ 63 ≤ x) (h1 : x < 2 ^ 63) : wrapInt x = x := by
  unfold wrapInt
  omega

theorem wrapInt_succ_ne (x : Int) : wrapInt (x + 1) ≠ x := by
  unfold wrapInt
  omega

@[simp] theorem GenerateHash_Pos (H : Hashes) (b : Blocks) : (GenerateHash H b).Pos = b.Pos := rfl

@[simp] theorem GenerateHash_Data (H : Hashes) (b : Blocks) : (GenerateHash H b).Data = b.Data := rfl

@[simp] theorem GenerateHash_TimeStamp (H : Hashes) (b : Blocks) :
    (GenerateHash H b).TimeStamp = b.TimeStamp := rfl

@[simp] theorem GenerateHash_PrevHash (H : Hashes) (b : Blocks) :
    (GenerateHash H b).PrevHash = b.PrevHash := rfl

theorem GenerateHash_Hash (H : Hashes) (b : Blocks) :
    (GenerateHash H b).Hash = hexEncode (H.sha256Sum (hashInput b)) := rfl

/-- A block whose stored hash is the recomputed one is a fixed point of `GenerateHash`. -/
theorem GenerateHash_eq_self (H : Hashes) (b : Blocks) (h : (GenerateHash H b).Hash = b.Hash) :
    GenerateHash H b = b := by
  cases b
  simp only [GenerateHash] at h ⊢
  rw [h]

theorem GenerateHash_idem (H : Hashes) (b : Blocks) :
    GenerateHash H (GenerateHash H b) = GenerateHash H b := rfl

/-- The verdict of `validBlock` is the conjunction of its three checks. -/
theorem validBlock_verdict (H : Hashes) (block prevBlock : Blocks) :
    (validBlock H block prevBlock).1 = true ↔
      prevBlock.Hash = block.PrevHash ∧ (GenerateHash H block).Hash = block.Hash ∧
        wrapInt (prevBlock.Pos + 1) = block.Pos := by
  unfold validBlock validateHash
  by_cases h1 : prevBlock.Hash = block.PrevHash
  · by_cases h2 : (GenerateHash H block).Hash = block.Hash
    · by_cases h3 : wrapInt (prevBlock.Pos + 1) = block.Pos <;> simp [h1, h2, h3]
    · simp [h1, h2]
  · simp [h1]

/-- The candidate after `validBlock`: untouched when the linkage check fails,
otherwise the candidate with its hash recomputed. -/
theorem validBlock_block (H : Hashes) (block prevBlock : Blocks) :
    (validBlock H block prevBlock).2.1 =
      if prevBlock.Hash ≠ block.PrevHash then block else GenerateHash H block := by
  unfold validBlock validateHash
  by_cases h1 : prevBlock.Hash = block.PrevHash
  · by_cases h2 : (GenerateHash H block).Hash = block.Hash
    · by_cases h3 : wrapInt (prevBlock.Pos + 1) = block.Pos <;> simp [h1, h2, h3]
    · simp [h1, h2]
  · simp [h1]

/-- Function `validBlock` never writes to the previous block. -/
theorem validBlock_prevBlock (H : Hashes) (block prevBlock : Blocks) :
    (validBlock H block prevBlock).2.2 = prevBlock := by
  unfold validBlock validateHash
  by_cases h1 : prevBlock.Hash = block.PrevHash
  · by_cases h2 : (GenerateHash H block).Hash = block.Hash
    · by_cases h3 : wrapInt (prevBlock.Pos + 1) = block.Pos <;> simp [h1, h2, h3]
    · simp [h1, h2]
  · simp [h1]

@[simp] theorem CreateBlock_fst (H : Hashes) (p : Blocks) (r : BloodUnit) (t : GoString) :
    (CreateBlock H p r t).1 = p := rfl

@[simp] theorem CreateBlock_Pos (H : Hashes) (p : Blocks) (r : BloodUnit) (t : GoString) :
    (CreateBlock H p r t).2.Pos = wrapInt (p.Pos + 1) := rfl

@[simp] theorem CreateBlock_Data (H : Hashes) (p : Blocks) (r : BloodUnit) (t : GoString) :
    (CreateBlock H p r t).2.Data = r := rfl

@[simp] theorem CreateBlock_PrevHash (H : Hashes) (p : Blocks) (r : BloodUnit) (t : GoString) :
    (CreateBlock H p r t).2.PrevHash = p.Hash := rfl

@[simp] theorem CreateBlock_TimeStamp (H : Hashes) (p : Blocks) (r : BloodUnit) (t : GoString) :
    (CreateBlock H p r t).2.TimeStamp = t := rfl

/-- The hash `CreateBlock` stores is the one `GenerateHash` recomputes. -/
theorem CreateBlock_hash_ok (H : Hashes) (p : Blocks) (r : BloodUnit) (t : GoString) :
    (GenerateHash H (CreateBlock H p r t).2).Hash = (CreateBlock H p r t).2.Hash := rfl

/-- The candidate `CreateBlock` builds on `p` passes `validBlock` against `p`. -/
theorem validBlock_CreateBlock (H : Hashes) (p : Blocks) (r : BloodUnit) (t : GoString) :
    validBlock H (CreateBlock H p r t).2 (CreateBlock H p r t).1 =
      (true, (CreateBlock H p r t).2, p) := by
  have hv : (validBlock H (CreateBlock H p r t).2 (CreateBlock H p r t).1).1 = true := by
    rw [validBlock_verdict]
    exact ⟨rfl, rfl, rfl⟩
  have hb := validBlock_block H (CreateBlock H p r t).2 (CreateBlock H p r t).1
  have hp := validBlock_prevBlock H (CreateBlock H p r t).2 (CreateBlock H p r t).1
  rw [if_neg (by simp)] at hb
  rw [GenerateHash_eq_self H _ (CreateBlock_hash_ok H p r t)] at hb
  ext1
  · exact hv
  · ext1
    · exact hb
    · exact hp

/-- On a ledger whose last block is `p`, `AddBlock` appends the block built on `p`. -/
theorem AddBlock_of_getLast (H : Hashes) (bc : Blockchain) (r : BloodUnit) (t : GoString)
    (p : Blocks) (hp : bc.blocks.getLast? = some p) :
    AddBlock H bc r t = some { blocks := bc.blocks ++ [(CreateBlock H p r t).2] } := by
  have hd : bc.blocks.dropLast ++ [p] = bc.blocks := List.dropLast_append_getLast? p hp
  unfold AddBlock
  rw [hp]
  simp only [validBlock_CreateBlock, hd]
  simp

/-- Function `AddBlock` panics on the empty ledger. -/
theorem AddBlock_nil (H : Hashes) (r : BloodUnit) (t : GoString) :
    AddBlock H { blocks := [] } r t = none := rfl

theorem buildChain_nil (H : Hashes) (t0 : GoString) :
    buildChain H t0 [] = some (NewBlockchain H t0) := rfl

theorem buildChain_snoc (H : Hashes) (t0 : GoString) (calls : List (BloodUnit × GoString))
    (c : BloodUnit × GoString) :
    buildChain H t0 (calls ++ [c]) =
      (buildChain H t0 calls).bind (fun bc => AddBlock H bc c.1 c.2) := by
  simp [buildChain, List.foldl_append]

/-- Induction over the ledgers `buildChain` reaches: a property of the fresh
ledger that every append of a block built on the last one preserves holds of
every reached ledger, and every run reaches one. -/
theorem buildChain_induction (H : Hashes) (t0 : GoString) (P : Blockchain → Prop)
    (h0 : P (NewBlockchain H t0))
    (hstep : ∀ (bc : Blockchain) (p : Blocks) (r : BloodUnit) (t : GoString), P bc →
      bc.blocks.getLast? = some p → P { blocks := bc.blocks ++ [(CreateBlock H p r t).2] })
    (calls : List (BloodUnit × GoString)) :
    ∃ bc, buildChain H t0 calls = some bc ∧ bc.blocks ≠ [] ∧ P bc := by
  induction calls using List.reverseRecOn with
  | nil => exact ⟨NewBlockchain H t0, rfl, by simp [NewBlockchain], h0⟩
  | append_singleton calls c ih =>
    obtain ⟨bc, hbc, hne, hP⟩ := ih
    obtain ⟨p, hp⟩ : ∃ p, bc.blocks.getLast? = some p := by
      cases hl : bc.blocks.getLast? with
      | none => exact absurd (List.getLast?_eq_none_iff.mp hl) hne
      | some p => exact ⟨p, rfl⟩
    refine ⟨{ blocks := bc.blocks ++ [(CreateBlock H p c.1 c.2).2] }, ?_, by simp, hstep bc p c.1 c.2 hP hp⟩
    rw [buildChain_snoc, hbc]
    exact AddBlock_of_getLast H bc c.1 c.2 p hp

/-- Every reached ledger is non-empty, each of its blocks stores the hash of
its own fields, and consecutive blocks are linked. -/
theorem buildChain_linked (H : Hashes) (t0 : GoString) (calls : List (BloodUnit × GoString)) :
    ∃ bc, buildChain H t0 calls = some bc ∧ bc.blocks ≠ [] ∧
      (∀ b ∈ bc.blocks, (GenerateHash H b).Hash = b.Hash) ∧ List.Chain' Adjacent bc.blocks := by
  have key := buildChain_induction H t0
    (fun bc => (∀ b ∈ bc.blocks, (GenerateHash H b).Hash = b.Hash) ∧
      List.Chain' Adjacent bc.blocks) ?_ ?_ calls
  · obtain ⟨bc, h1, h2, h3, h4⟩ := key
    exact ⟨bc, h1, h2, h3, h4⟩
  · constructor
    · intro b hb
      simp only [NewBlockchain, List.mem_singleton] at hb
      subst hb
      rfl
    · exact List.chain'_singleton _
  · intro bc p r t hP hp
    obtain ⟨hh, hc⟩ := hP
    constructor
    · intro b hb
      simp only [List.mem_append, List.mem_singleton] at hb
      rcases hb with hb | hb
      · exact hh b hb
      · subst hb
        rfl
    · refine List.Chain'.append hc (List.chain'_singleton _) ?_
      intro x hx y hy
      rw [hp] at hx
      simp only [Option.mem_def, Option.some.injEq, List.head?_cons] at hx hy
      subst hx
      subst hy
      exact ⟨rfl, rfl⟩

/-- A reached ledger has one block more than the number of `AddBlock` calls. -/
theorem buildChain_length (H : Hashes) (t0 : GoString) (calls : List (BloodUnit × GoString))
    (bc : Blockchain) (h : buildChain H t0 calls = some bc) :
    bc.blocks.length = calls.length + 1 := by
  induction calls using List.reverseRecOn generalizing bc with
  | nil =>
    rw [buildChain_nil] at h
    rw [← Option.some.inj h]
    rfl
  | append_singleton calls c ih =>
    rw [buildChain_snoc] at h
    cases hprev : buildChain H t0 calls with
    | none => simp [hprev] at h
    | some bc0 =>
      rw [hprev, Option.some_bind] at h
      have hlen := ih bc0 hprev
      obtain ⟨p, hp⟩ : ∃ p, bc0.blocks.getLast? = some p := by
        cases hl : bc0.blocks.getLast? with
        | none =>
          have := List.getLast?_eq_none_iff.mp hl
          simp [this] at hlen
        | some p => exact ⟨p, rfl⟩
      rw [AddBlock_of_getLast H bc0 c.1 c.2 p hp] at h
      rw [← Option.some.inj h]
      simp [hlen]

/-- The ledger made by one append has two blocks. -/
theorem sampleChain_length (bc : Blockchain)
    (h : buildChain plainHashes (lit "t0") [(sampleUnit, lit "t1")] = some bc) :
    bc.blocks.length = 2 :=
  buildChain_length plainHashes (lit "t0") [(sampleUnit, lit "t1")] bc h

/-- The serializer on a byte that is not valid UTF-8: the quoted character
U+FFFD. -/
theorem jsonString_invalid_byte :
    jsonString [0xFF] = [0x22, 0xEF, 0xBF, 0xBD, 0x22] := by
  decide

/-- The serializer on the character U+FFFD itself: written as it is, so the
same output as for an invalid byte. -/
theorem jsonString_replacement_char :
    jsonString [0xEF, 0xBF, 0xBD] = [0x22, 0xEF, 0xBF, 0xBD, 0x22] := by
  decide

/-- The serializer on ASCII text with characters that are escaped. -/
theorem jsonString_escapes :
    jsonString (lit "a\"b<\n") = lit "\"a\\\"b\\u003c\\n\"" := by
  decide

/-! ## The claims -/

/-- C1 (chain integrity).  Every ledger obtained from `NewBlockchain` by a finite
sequence of `AddBlock` calls (any records, any clock readings) exists, every
block of it stores the digest recomputed from its own `Pos`, `TimeStamp`, `Data`
and `PrevHash`, and every block after the first has the `PrevHash` equal to the
`Hash` of the block before it, the `Pos` one more (in Go's `int` arithmetic), and
passes `validBlock` against it. -/
theorem chain_integrity (H : Hashes) (t0 : GoString) (calls : List (BloodUnit × GoString)) :
    ∃ bc, buildChain H t0 calls = some bc ∧
      (∀ (i : Nat) (h : i < bc.blocks.length),
        (GenerateHash H bc.blocks[i]).Hash = bc.blocks[i].Hash) ∧
      (∀ (i : Nat) (h : i + 1 < bc.blocks.length),
        bc.blocks[i + 1].PrevHash = bc.blocks[i].Hash ∧
        bc.blocks[i + 1].Pos = wrapInt (bc.blocks[i].Pos + 1) ∧
        (validBlock H bc.blocks[i + 1] bc.blocks[i]).1 = true) := by
  obtain ⟨bc, hbc, _, hh, hc⟩ := buildChain_linked H t0 calls
  refine ⟨bc, hbc, fun i h => hh _ (List.getElem_mem h), ?_⟩
  intro i h
  have hadj : Adjacent bc.blocks[i] bc.blocks[i + 1] :=
    List.chain'_iff_get.mp hc i (by omega)
  refine ⟨hadj.1, hadj.2, ?_⟩
  rw [validBlock_verdict]
  exact ⟨hadj.1.symm, hh _ (List.getElem_mem h), hadj.2.symm⟩

/-- C1 at the ledger made by one append: it has two blocks, and the pair at
index 0 and 1 is linked and valid. -/
theorem chain_integrity_witness :
    ∃ bc, buildChain plainHashes (lit "t0") [(sampleUnit, lit "t1")] = some bc ∧
      ∃ h : 0 + 1 < bc.blocks.length,
        (GenerateHash plainHashes bc.blocks[0 + 1]).Hash = bc.blocks[0 + 1].Hash ∧
        bc.blocks[0 + 1].PrevHash = bc.blocks[0].Hash ∧
        bc.blocks[0 + 1].Pos = wrapInt (bc.blocks[0].Pos + 1) ∧
        (validBlock plainHashes bc.blocks[0 + 1] bc.blocks[0]).1 = true := by
  obtain ⟨bc, hbc, h1, h2⟩ := chain_integrity plainHashes (lit "t0") [(sampleUnit, lit "t1")]
  have hlen : 0 + 1 < bc.blocks.length := by
    rw [sampleChain_length bc hbc]
    decide
  exact ⟨bc, hbc, hlen, h1 (0 + 1) hlen, h2 0 hlen⟩

/-- C2.  For every candidate and every previous block, `validBlock` answers
true exactly when all three checks hold: the previous block's `Hash` equals the
candidate's `PrevHash`, the digest recomputed from the candidate's stored `Pos`,
`TimeStamp`, `Data` and `PrevHash` equals the candidate's stored `Hash`, and the
candidate's `Pos` is the previous `Pos` plus one (Go `int` addition); when any
one of them fails the answer is false. -/
theorem validBlock_iff_three_checks (H : Hashes) (candidate previous : Blocks) :
    ((validBlock H candidate previous).1 = true ↔
      (previous.Hash = candidate.PrevHash ∧
        hexEncode (H.sha256Sum (fmtD candidate.Pos ++ candidate.TimeStamp ++
          marshalBloodUnit candidate.Data ++ candidate.PrevHash)) = candidate.Hash ∧
        candidate.Pos = wrapInt (previous.Pos + 1))) ∧
    ((validBlock H candidate previous).1 = false ↔
      (previous.Hash ≠ candidate.PrevHash ∨
        hexEncode (H.sha256Sum (fmtD candidate.Pos ++ candidate.TimeStamp ++
          marshalBloodUnit candidate.Data ++ candidate.PrevHash)) ≠ candidate.Hash ∨
        candidate.Pos ≠ wrapInt (previous.Pos + 1))) := by
  have key : (validBlock H candidate previous).1 = true ↔
      (previous.Hash = candidate.PrevHash ∧
        hexEncode (H.sha256Sum (fmtD candidate.Pos ++ candidate.TimeStamp ++
          marshalBloodUnit candidate.Data ++ candidate.PrevHash)) = candidate.Hash ∧
        candidate.Pos = wrapInt (previous.Pos + 1)) := by
    rw [validBlock_verdict, GenerateHash_Hash]
    unfold hashInput
    constructor
    · rintro ⟨h1, h2, h3⟩
      exact ⟨h1, h2, h3.symm⟩
    · rintro ⟨h1, h2, h3⟩
      exact ⟨h1, h2, h3.symm⟩
  refine ⟨key, ?_⟩
  rw [← Bool.not_eq_true, key]
  tauto

/-- C4 (append-only).  On every non-empty ledger of length `n` and for every
record `r`, `AddBlock` returns a ledger of length `n + 1` whose first `n` blocks
are the old ones, in order and unmodified, and whose last block is the one
`CreateBlock` builds from the old last block and `r`, with payload `r`; and the
candidate `CreateBlock` builds on any block passes `validBlock` against that
block, so `AddBlock` never takes its rejection branch. -/
theorem AddBlock_append_only (H : Hashes) (bc : Blockchain) (r : BloodUnit) (t : GoString)
    (hne : bc.blocks ≠ []) :
    (∃ last bc1, bc.blocks.getLast? = some last ∧ AddBlock H bc r t = some bc1 ∧
      bc1.blocks.length = bc.blocks.length + 1 ∧
      bc1.blocks.take bc.blocks.length = bc.blocks ∧
      bc1.blocks.getLast? = some (CreateBlock H last r t).2 ∧
      (CreateBlock H last r t).2.Data = r) ∧
    (∀ (p : Blocks) (r1 : BloodUnit) (t1 : GoString),
      (validBlock H (CreateBlock H p r1 t1).2 (CreateBlock H p r1 t1).1).1 = true) := by
  constructor
  · obtain ⟨last, hlast⟩ : ∃ p, bc.blocks.getLast? = some p := by
      cases hl : bc.blocks.getLast? with
      | none => exact absurd (List.getLast?_eq_none_iff.mp hl) hne
      | some p => exact ⟨p, rfl⟩
    refine ⟨last, _, hlast, AddBlock_of_getLast H bc r t last hlast, ?_, ?_, ?_, rfl⟩
    · simp
    · simp
    · simp
  · intro p r1 t1
    rw [validBlock_CreateBlock]

/-- C4 on the fresh ledger. -/
theorem AddBlock_append_only_witness :
    (NewBlockchain plainHashes (lit "t0")).blocks ≠ [] ∧
    ∃ last bc1, (NewBlockchain plainHashes (lit "t0")).blocks.getLast? = some last ∧
      AddBlock plainHashes (NewBlockchain plainHashes (lit "t0")) sampleUnit (lit "t1") =
        some bc1 ∧
      bc1.blocks.length = (NewBlockchain plainHashes (lit "t0")).blocks.length + 1 ∧
      bc1.blocks.take (NewBlockchain plainHashes (lit "t0")).blocks.length =
        (NewBlockchain plainHashes (lit "t0")).blocks ∧
      bc1.blocks.getLast? = some (CreateBlock plainHashes last sampleUnit (lit "t1")).2 ∧
      (CreateBlock plainHashes last sampleUnit (lit "t1")).2.Data = sampleUnit :=
  ⟨by simp [NewBlockchain], (AddBlock_append_only plainHashes
    (NewBlockchain plainHashes (lit "t0")) sampleUnit (lit "t1") (by simp [NewBlockchain])).1⟩

/-- In every reached ledger the block at index `i` has position `i + 1`, read in
Go's `int`. -/
theorem buildChain_positions (H : Hashes) (t0 : GoString)
    (calls : List (BloodUnit × GoString)) :
    ∃ bc, buildChain H t0 calls = some bc ∧
      ∀ (i : Nat) (h : i < bc.blocks.length), bc.blocks[i].Pos = wrapInt ((i : Int) + 1) := by
  have key := buildChain_induction H t0
    (fun bc => ∀ (i : Nat) (h : i < bc.blocks.length),
      bc.blocks[i].Pos = wrapInt ((i : Int) + 1)) ?_ ?_ calls
  · obtain ⟨bc, h1, _, h3⟩ := key
    exact ⟨bc, h1, h3⟩
  · intro i h
    simp only [NewBlockchain, List.length_singleton] at h
    obtain rfl : i = 0 := by omega
    rfl
  · intro bc p r t hP hp i h
    simp only [List.length_append, List.length_singleton] at h
    by_cases hi : i < bc.blocks.length
    · simp only [List.getElem_append_left hi]
      exact hP i hi
    · obtain rfl : i = bc.blocks.length := by omega
      simp only [List.getElem_concat_length, CreateBlock_Pos]
      have hpos : 0 < bc.blocks.length := by
        cases hb : bc.blocks with
        | nil => simp [hb] at hp
        | cons a l => simp
      have hlast : p = bc.blocks[bc.blocks.length - 1] := by
        rw [List.getLast?_eq_getElem?, List.getElem?_eq_getElem (by omega)] at hp
        exact (Option.some.inj hp).symm
      rw [hlast, hP (bc.blocks.length - 1) (by omega), wrapInt_wrapInt_add_one]
      congr 1
      omega

/-- C5 as stated fails on the code: the ledger after `NewBlockchain` and one
`AddBlock` has positions 1 and 2, not 0 and 1; the genesis block is built by
`CreateBlock` on the zero block, whose `Pos` is 0, and so gets position 1. -/
theorem positions_counterexample :
    ∃ bc, buildChain plainHashes (lit "t0") [(sampleUnit, lit "t1")] = some bc ∧
      bc.blocks.map Blocks.Pos = [1, 2] ∧
      ¬ (∀ (i : Nat) (h : i < bc.blocks.length), bc.blocks[i].Pos = (i : Int)) := by
  obtain ⟨bc, hbc, hpos⟩ := buildChain_positions plainHashes (lit "t0") [(sampleUnit, lit "t1")]
  have hlen := sampleChain_length bc hbc
  have h0 := hpos 0 (by omega)
  have h1 := hpos 1 (by omega)
  refine ⟨bc, hbc, ?_, ?_⟩
  · apply List.ext_getElem
    · simpa using hlen
    · intro i hi1 hi2
      simp only [List.length_map] at hi1
      have : i = 0 ∨ i = 1 := by omega
      rcases this with rfl | rfl
      · simpa using h0
      · simpa using h1
  · intro hall
    have := hall 0 (by omega)
    rw [h0] at this
    exact absurd this (by decide)

/-- C5, amended (monotonic positions).  In every ledger obtained from
`NewBlockchain` by `AddBlock` calls, the block at index `i` has position
`i + 1`: the genesis block has position 1 and the block of the first submitted
record has position 2.  The bound `i + 1 < 2 ^ 63` holds of every index into a
Go slice, whose length is an `int`. -/
theorem positions_from_one (H : Hashes) (t0 : GoString)
    (calls : List (BloodUnit × GoString)) :
    ∃ bc, buildChain H t0 calls = some bc ∧
      ∀ (i : Nat) (h : i < bc.blocks.length), i + 1 < 2 ^ 63 →
        bc.blocks[i].Pos = (i : Int) + 1 := by
  obtain ⟨bc, hbc, hpos⟩ := buildChain_positions H t0 calls
  refine ⟨bc, hbc, fun i h hi => ?_⟩
  rw [hpos i h]
  refine wrapInt_of_range _ (by omega) ?_
  have : ((i + 1 : Nat) : Int) < ((2 ^ 63 : Nat) : Int) := Int.ofNat_lt.mpr hi
  push_cast at this
  exact this

/-- C5 amended, on the ledger made by one append: the block at index 1 has
position 2. -/
theorem positions_from_one_witness :
    ∃ bc, buildChain plainHashes (lit "t0") [(sampleUnit, lit "t1")] = some bc ∧
      ∃ h : 1 < bc.blocks.length, bc.blocks[1].Pos = ((1 : Nat) : Int) + 1 := by
  obtain ⟨bc, hbc, hpos⟩ := positions_from_one plainHashes (lit "t0") [(sampleUnit, lit "t1")]
  have hlen : 1 < bc.blocks.length := by
    rw [sampleChain_length bc hbc]
    decide
  exact ⟨bc, hbc, hlen, hpos 1 hlen (by decide)⟩

/-- C6.  `NewBlockchain` returns a ledger of exactly one block, the genesis
block; every ledger reached from it by `AddBlock` calls has that block at index
0; its `PrevHash` is empty, its payload has `IsGenesis` true and every other
field empty, and its `Hash` is the digest of its own fields. -/
theorem genesis_at_index_zero (H : Hashes) (t0 : GoString)
    (calls : List (BloodUnit × GoString)) :
    (NewBlockchain H t0).blocks = [GenesisBlock H t0] ∧
    (∃ bc, buildChain H t0 calls = some bc ∧ bc.blocks[0]? = some (GenesisBlock H t0)) ∧
    (GenesisBlock H t0).PrevHash = [] ∧
    (GenesisBlock H t0).Data =
      { UnitID := [], DonorID := [], BloodType := [], DonationDate := [], ExpiryDate := [],
        Status := [], RecipientID := [], IsGenesis := true } ∧
    (GenerateHash H (GenesisBlock H t0)).Hash = (GenesisBlock H t0).Hash ∧
    (GenesisBlock H t0).Hash =
      hexEncode (H.sha256Sum (fmtD (GenesisBlock H t0).Pos ++ (GenesisBlock H t0).TimeStamp ++
        marshalBloodUnit (GenesisBlock H t0).Data ++ (GenesisBlock H t0).PrevHash)) := by
  refine ⟨rfl, ?_, rfl, rfl, rfl, rfl⟩
  have key := buildChain_induction H t0
    (fun bc => bc.blocks[0]? = some (GenesisBlock H t0)) rfl ?_ calls
  · obtain ⟨bc, h1, _, h3⟩ := key
    exact ⟨bc, h1, h3⟩
  · intro bc p r t hP hp
    have hpos : 0 < bc.blocks.length := by
      cases hb : bc.blocks with
      | nil => simp [hb] at hp
      | cons a l => simp
    show (bc.blocks ++ [(CreateBlock H p r t).2])[0]? = some (GenesisBlock H t0)
    rw [List.getElem?_append_left hpos]
    exact hP

/-! ## Tampering -/

theorem hextable_injective : ∀ i j : Fin 16, hextable i.val = hextable j.val → i = j := by
  decide

theorem hexEncode_cons (a : Byte) (l : List Byte) :
    hexEncode (a :: l) = hextable (a.val / 16) :: hextable (a.val % 16) :: hexEncode l := rfl

/-- Function `hex.EncodeToString` loses nothing: different byte strings have
different encodings. -/
theorem hexEncode_injective : Function.Injective hexEncode := by
  intro l1
  induction l1 with
  | nil =>
    intro l2 h
    cases l2 with
    | nil => rfl
    | cons b l2 => simp [hexEncode_cons, hexEncode] at h
  | cons a l1 ih =>
    intro l2 h
    cases l2 with
    | nil => simp [hexEncode_cons, hexEncode] at h
    | cons b l2 =>
      rw [hexEncode_cons, hexEncode_cons] at h
      simp only [List.cons.injEq] at h
      obtain ⟨h1, h2, h3⟩ := h
      have hq := hextable_injective ⟨a.val / 16, by omega⟩ ⟨b.val / 16, by omega⟩ h1
      have hr := hextable_injective ⟨a.val % 16, by omega⟩ ⟨b.val % 16, by omega⟩ h2
      simp only [Fin.mk.injEq] at hq hr
      have hab : a = b := by
        apply Fin.ext
        omega
      rw [hab, ih h3]

/-- A block of a one-append ledger, spelled out. -/
theorem buildChain_one (H : Hashes) (t0 : GoString) (r : BloodUnit) (t : GoString) :
    buildChain H t0 [(r, t)] =
      some { blocks := [GenesisBlock H t0, (CreateBlock H (GenesisBlock H t0) r t).2] } := by
  have h := buildChain_snoc H t0 [] (r, t)
  rw [List.nil_append, buildChain_nil] at h
  rw [h]
  exact AddBlock_of_getLast H (NewBlockchain H t0) r t (GenesisBlock H t0) rfl

/-- On a non-empty ledger a bound record is given its identifier, appended in a
block built on the last block, and answered with status Created. -/
theorem CreateBloodEntry_bound (H : Hashes) (bc : Blockchain) (u : BloodUnit) (t : GoString)
    (hne : bc.blocks ≠ []) :
    ∃ last, bc.blocks.getLast? = some last ∧
      CreateBloodEntry H bc (some u) t =
        some ({ status := StatusCreated, body := Body.unit { u with UnitID := unitIDOf H u } },
          { blocks := bc.blocks ++
              [(CreateBlock H last { u with UnitID := unitIDOf H u } t).2] }) := by
  obtain ⟨last, hlast⟩ : ∃ p, bc.blocks.getLast? = some p := by
    cases hl : bc.blocks.getLast? with
    | none => exact absurd (List.getLast?_eq_none_iff.mp hl) hne
    | some p => exact ⟨p, rfl⟩
  refine ⟨last, hlast, ?_⟩
  unfold CreateBloodEntry
  simp only [AddBlock_of_getLast H bc _ t last hlast]

/-- A request body that does not bind is answered with status 400 and leaves
the ledger alone. -/
theorem CreateBloodEntry_unbound (H : Hashes) (bc : Blockchain) (t : GoString) :
    CreateBloodEntry H bc none t =
      some ({ status := StatusBadRequest, body := Body.error (lit "bad request") }, bc) := rfl

/-- C8.  The identifier a submission receives is a function of `DonorID`,
`BloodType` and `DonationDate` only: two bound records that agree on these
three fields, submitted to any two non-empty ledgers at any times, are both
answered with the same `UnitID`, the hex MD5 of the three fields concatenated,
whatever their other fields (the client-supplied `UnitID` included), which are
returned as submitted; and the payload of the block each submission appends
carries that `UnitID`. -/
theorem unit_id_of_three_fields (H : Hashes) (bc1 bc2 : Blockchain) (u1 u2 : BloodUnit)
    (t1 t2 : GoString) (hdonor : u1.DonorID = u2.DonorID) (htype : u1.BloodType = u2.BloodType)
    (hdate : u1.DonationDate = u2.DonationDate) (h1 : bc1.blocks ≠ []) (h2 : bc2.blocks ≠ []) :
    ∃ id b1 b2,
      id = hexEncode (H.md5Sum (u1.DonorID ++ u1.BloodType ++ u1.DonationDate)) ∧
      CreateBloodEntry H bc1 (some u1) t1 =
        some ({ status := StatusCreated, body := Body.unit { u1 with UnitID := id } },
          { blocks := bc1.blocks ++ [b1] }) ∧
      CreateBloodEntry H bc2 (some u2) t2 =
        some ({ status := StatusCreated, body := Body.unit { u2 with UnitID := id } },
          { blocks := bc2.blocks ++ [b2] }) ∧
      b1.Data = { u1 with UnitID := id } ∧ b2.Data = { u2 with UnitID := id } := by
  obtain ⟨l1, _, e1⟩ := CreateBloodEntry_bound H bc1 u1 t1 h1
  obtain ⟨l2, _, e2⟩ := CreateBloodEntry_bound H bc2 u2 t2 h2
  have hid : unitIDOf H u2 = unitIDOf H u1 := by
    unfold unitIDOf
    rw [hdonor, htype, hdate]
  rw [hid] at e2
  exact ⟨unitIDOf H u1, _, _, rfl, e1, e2, rfl, rfl⟩

/-- C8 on two records that differ in status, recipient, expiry date, genesis
flag and client-supplied identifier. -/
theorem unit_id_of_three_fields_witness :
    ∃ id b1 b2,
      id = hexEncode (plainHashes.md5Sum
        (sampleUnit.DonorID ++ sampleUnit.BloodType ++ sampleUnit.DonationDate)) ∧
      CreateBloodEntry plainHashes (NewBlockchain plainHashes (lit "t0")) (some sampleUnit)
          (lit "t1") =
        some ({ status := StatusCreated, body := Body.unit { sampleUnit with UnitID := id } },
          { blocks := (NewBlockchain plainHashes (lit "t0")).blocks ++ [b1] }) ∧
      CreateBloodEntry plainHashes (NewBlockchain plainHashes (lit "t9")) (some sampleUnitAgain)
          (lit "t2") =
        some ({ status := StatusCreated, body := Body.unit { sampleUnitAgain with UnitID := id } },
          { blocks := (NewBlockchain plainHashes (lit "t9")).blocks ++ [b2] }) ∧
      b1.Data = { sampleUnit with UnitID := id } ∧
      b2.Data = { sampleUnitAgain with UnitID := id } :=
  unit_id_of_three_fields plainHashes (NewBlockchain plainHashes (lit "t0"))
    (NewBlockchain plainHashes (lit "t9")) sampleUnit sampleUnitAgain
    (lit "t1") (lit "t2") rfl rfl rfl (by simp [NewBlockchain]) (by simp [NewBlockchain])

/-- C9.  A submission to a non-empty ledger gets a definitive result: the
handler returns, and its answer has status Created exactly when the ledger was
extended by exactly one block; in that case the body is the enriched record
(the bound record with its computed `UnitID`) and the new block carries that
record; otherwise, and so whenever the ledger is not extended, the answer is
the failure status 400 with an error body and the ledger is unchanged. -/
theorem submission_definitive (H : Hashes) (bc : Blockchain) (bound : Option BloodUnit)
    (t : GoString) (hne : bc.blocks ≠ []) :
    ∃ resp bc1, CreateBloodEntry H bc bound t = some (resp, bc1) ∧
      (resp.status = StatusCreated ↔ ∃ b, bc1.blocks = bc.blocks ++ [b]) ∧
      (resp.status = StatusCreated → ∃ u b, bound = some u ∧
        resp.body = Body.unit { u with UnitID := unitIDOf H u } ∧
        bc1.blocks = bc.blocks ++ [b] ∧ b.Data = { u with UnitID := unitIDOf H u }) ∧
      ((¬ ∃ b, bc1.blocks = bc.blocks ++ [b]) →
        resp.status = StatusBadRequest ∧ (∃ msg, resp.body = Body.error msg) ∧ bc1 = bc) := by
  cases bound with
  | none =>
    refine ⟨_, _, CreateBloodEntry_unbound H bc t, ?_, ?_, ?_⟩
    · constructor
      · intro h
        exact absurd h (by decide)
      · rintro ⟨b, hb⟩
        have := congrArg List.length hb
        simp at this
    · intro h
      exact absurd h (by decide)
    · intro _
      exact ⟨rfl, ⟨_, rfl⟩, rfl⟩
  | some u =>
    obtain ⟨last, _, e⟩ := CreateBloodEntry_bound H bc u t hne
    refine ⟨_, _, e, ?_, ?_, ?_⟩
    · exact ⟨fun _ => ⟨_, rfl⟩, fun _ => rfl⟩
    · intro _
      exact ⟨u, _, rfl, rfl, rfl, rfl⟩
    · intro h
      exact absurd ⟨_, rfl⟩ h

/-- C9 on the fresh ledger, for a body that binds. -/
theorem submission_definitive_witness :
    ∃ resp bc1, CreateBloodEntry plainHashes (NewBlockchain plainHashes (lit "t0"))
        (some sampleUnit) (lit "t1") = some (resp, bc1) ∧
      (resp.status = StatusCreated ↔
        ∃ b, bc1.blocks = (NewBlockchain plainHashes (lit "t0")).blocks ++ [b]) ∧
      (resp.status = StatusCreated → ∃ u b, some sampleUnit = some u ∧
        resp.body = Body.unit { u with UnitID := unitIDOf plainHashes u } ∧
        bc1.blocks = (NewBlockchain plainHashes (lit "t0")).blocks ++ [b] ∧
        b.Data = { u with UnitID := unitIDOf plainHashes u }) ∧
      ((¬ ∃ b, bc1.blocks = (NewBlockchain plainHashes (lit "t0")).blocks ++ [b]) →
        resp.status = StatusBadRequest ∧ (∃ msg, resp.body = Body.error msg) ∧
          bc1 = NewBlockchain plainHashes (lit "t0")) :=
  submission_definitive plainHashes (NewBlockchain plainHashes (lit "t0")) (some sampleUnit)
    (lit "t1") (by simp [NewBlockchain])

/-- C10 as stated fails on the code: a bound record whose status is none of
Donated, Stored, Used, Expired and whose blood type and donation date are empty
is answered with status Created, gets the identifier computed from its three
fields, and is appended to the ledger. -/
theorem malformed_accepted_counterexample :
    bogusUnit.Status ≠ lit "Donated" ∧ bogusUnit.Status ≠ lit "Stored" ∧
    bogusUnit.Status ≠ lit "Used" ∧ bogusUnit.Status ≠ lit "Expired" ∧
    bogusUnit.BloodType = [] ∧ bogusUnit.DonationDate = [] ∧
    ∃ b, CreateBloodEntry plainHashes (NewBlockchain plainHashes (lit "t0")) (some bogusUnit)
        (lit "t1") =
      some ({ status := StatusCreated, body := Body.unit { bogusUnit with UnitID := lit "4431" } },
        { blocks := (NewBlockchain plainHashes (lit "t0")).blocks ++ [b] }) ∧
      b.Data = { bogusUnit with UnitID := lit "4431" } := by
  refine ⟨by decide, by decide, by decide, by decide, rfl, rfl, ?_⟩
  obtain ⟨last, _, e⟩ := CreateBloodEntry_bound plainHashes (NewBlockchain plainHashes (lit "t0"))
    bogusUnit (lit "t1") (by simp [NewBlockchain])
  have hid : unitIDOf plainHashes bogusUnit = lit "4431" := by decide
  rw [hid] at e
  exact ⟨_, e, rfl⟩

/-- C10, amended.  The only submission rejected before any ledger work is one
whose request body fails to bind: it is answered with status 400 and the error
body, no identifier is computed and the ledger is unchanged.  A record that
binds is not checked: whatever its status, and also when its donor identifier,
blood type or donation date is empty, it is given its identifier, appended to
the (non-empty) ledger and answered with status Created. -/
theorem only_unbound_rejected (H : Hashes) (bc : Blockchain) (t : GoString) :
    CreateBloodEntry H bc none t =
      some ({ status := StatusBadRequest, body := Body.error (lit "bad request") }, bc) ∧
    ∀ u : BloodUnit, bc.blocks ≠ [] →
      ∃ b, CreateBloodEntry H bc (some u) t =
        some ({ status := StatusCreated, body := Body.unit { u with UnitID := unitIDOf H u } },
          { blocks := bc.blocks ++ [b] }) ∧
        b.Data = { u with UnitID := unitIDOf H u } := by
  refine ⟨rfl, fun u hne => ?_⟩
  obtain ⟨last, _, e⟩ := CreateBloodEntry_bound H bc u t hne
  exact ⟨_, e, rfl⟩

/-- C10 amended, on the fresh ledger and a record with a status outside the
listed ones. -/
theorem only_unbound_rejected_witness :
    ∃ b, CreateBloodEntry plainHashes (NewBlockchain plainHashes (lit "t0")) (some bogusUnit)
        (lit "t1") =
      some ({ status := StatusCreated,
              body := Body.unit { bogusUnit with UnitID := unitIDOf plainHashes bogusUnit } },
        { blocks := (NewBlockchain plainHashes (lit "t0")).blocks ++ [b] }) ∧
      b.Data = { bogusUnit with UnitID := unitIDOf plainHashes bogusUnit } :=
  (only_unbound_rejected plainHashes (NewBlockchain plainHashes (lit "t0")) (lit "t1")).2
    bogusUnit (by simp [NewBlockchain])

/-! ## Payloads of a ledger -/

/-- The payloads of a reached ledger are the genesis payload followed by the
submitted records, in order. -/
theorem buildChain_payloads (H : Hashes) (t0 : GoString) (calls : List (BloodUnit × GoString))
    (bc : Blockchain) (h : buildChain H t0 calls = some bc) :
    bc.blocks.map Blocks.Data = (GenesisBlock H t0).Data :: calls.map Prod.fst := by
  induction calls using List.reverseRecOn generalizing bc with
  | nil =>
    rw [buildChain_nil] at h
    rw [← Option.some.inj h]
    rfl
  | append_singleton calls c ih =>
    rw [buildChain_snoc] at h
    cases hprev : buildChain H t0 calls with
    | none => simp [hprev] at h
    | some bc0 =>
      rw [hprev, Option.some_bind] at h
      have hdata := ih bc0 hprev
      obtain ⟨p, hp⟩ : ∃ p, bc0.blocks.getLast? = some p := by
        cases hl : bc0.blocks.getLast? with
        | none =>
          have := List.getLast?_eq_none_iff.mp hl
          simp [this] at hdata
        | some p => exact ⟨p, rfl⟩
      rw [AddBlock_of_getLast H bc0 c.1 c.2 p hp] at h
      rw [← Option.some.inj h]
      simp [hdata]

/-- Every run of `buildChain` returns a ledger. -/
theorem buildChain_isSome (H : Hashes) (t0 : GoString) (calls : List (BloodUnit × GoString)) :
    ∃ bc, buildChain H t0 calls = some bc ∧ bc.blocks ≠ [] := by
  obtain ⟨bc, h1, h2, _⟩ := buildChain_induction H t0 (fun _ => True) trivial
    (fun _ _ _ _ _ _ => trivial) calls
  exact ⟨bc, h1, h2⟩

/-- The payload at index `i` of a reached ledger, read off `buildChain_payloads`. -/
theorem buildChain_data_at (H : Hashes) (t0 : GoString) (calls : List (BloodUnit × GoString))
    (bc : Blockchain) (h : buildChain H t0 calls = some bc) (i : Nat) (b : Blocks)
    (hb : bc.blocks[i]? = some b) :
    ((GenesisBlock H t0).Data :: calls.map Prod.fst)[i]? = some b.Data := by
  rw [← buildChain_payloads H t0 calls bc h, List.getElem?_map, hb]
  rfl

/-! ## The remaining claims -/

/-- C11 as stated fails on the code: a submission whose body sets `isgenesis`
to true is bound, accepted and appended as it is, so the ledger after it has a
block at index 1 whose payload has `IsGenesis` true. -/
theorem second_genesis_flag_counterexample :
    sampleUnitAgain.IsGenesis = true ∧
    ∃ resp bc, CreateBloodEntry plainHashes (NewBlockchain plainHashes (lit "t0"))
        (some sampleUnitAgain) (lit "t1") = some (resp, bc) ∧
      buildChain plainHashes (lit "t0")
        [({ sampleUnitAgain with UnitID := unitIDOf plainHashes sampleUnitAgain }, lit "t1")] =
          some bc ∧
      ∃ b, bc.blocks[1]? = some b ∧ b.Data.IsGenesis = true := by
  refine ⟨rfl, ?_⟩
  obtain ⟨last, hlast, e⟩ := CreateBloodEntry_bound plainHashes
    (NewBlockchain plainHashes (lit "t0")) sampleUnitAgain (lit "t1") (by simp [NewBlockchain])
  obtain rfl : GenesisBlock plainHashes (lit "t0") = last := Option.some.inj hlast
  exact ⟨_, _, e, buildChain_one plainHashes (lit "t0") _ (lit "t1"), _, rfl, rfl⟩

/-- C11, amended.  In every ledger reached from `NewBlockchain` by any sequence
of submissions the block at index 0 has `IsGenesis` true, and the block at
index `i + 1` carries the `IsGenesis` flag of the `i`-th submitted record as it
was submitted (so also true, when the client sent true); the block at index 0
is the only one flagged when no submitted record has the flag set.
`CreateBloodEntry` hands the flag of the bound record to `AddBlock` unchanged. -/
theorem genesis_flag_as_submitted (H : Hashes) (t0 : GoString)
    (calls : List (BloodUnit × GoString)) :
    ∃ bc, buildChain H t0 calls = some bc ∧
      (∃ g, bc.blocks[0]? = some g ∧ g.Data.IsGenesis = true) ∧
      (∀ (i : Nat) (h : i < calls.length),
        ∃ b, bc.blocks[i + 1]? = some b ∧ b.Data.IsGenesis = calls[i].1.IsGenesis) ∧
      ((∀ c ∈ calls, c.1.IsGenesis = false) →
        ∀ (i : Nat) (b : Blocks), bc.blocks[i]? = some b → b.Data.IsGenesis = true → i = 0) ∧
      (∀ (bc0 : Blockchain) (u : BloodUnit) (t : GoString), bc0.blocks ≠ [] →
        ∃ resp b, CreateBloodEntry H bc0 (some u) t =
            some (resp, { blocks := bc0.blocks ++ [b] }) ∧
          b.Data.IsGenesis = u.IsGenesis) := by
  obtain ⟨bc, hbc, _⟩ := buildChain_isSome H t0 calls
  have hlen := buildChain_length H t0 calls bc hbc
  refine ⟨bc, hbc, ?_, ?_, ?_, ?_⟩
  · refine ⟨bc.blocks[0], List.getElem?_eq_getElem (by omega), ?_⟩
    have h0 := buildChain_data_at H t0 calls bc hbc 0 bc.blocks[0]
      (List.getElem?_eq_getElem (by omega))
    simp only [List.getElem?_cons_zero, Option.some.injEq] at h0
    rw [← h0]
    rfl
  · intro i h
    refine ⟨bc.blocks[i + 1], List.getElem?_eq_getElem (by omega), ?_⟩
    have hi := buildChain_data_at H t0 calls bc hbc (i + 1) bc.blocks[i + 1]
      (List.getElem?_eq_getElem (by omega))
    simp only [List.getElem?_cons_succ, List.getElem?_map, List.getElem?_eq_getElem h,
      Option.map_some', Option.some.injEq] at hi
    rw [← hi]
  · intro hnone i b hb hflag
    by_contra hi
    obtain ⟨j, rfl⟩ : ∃ j, i = j + 1 := ⟨i - 1, by omega⟩
    have hj := buildChain_data_at H t0 calls bc hbc (j + 1) b hb
    simp only [List.getElem?_cons_succ, List.getElem?_map] at hj
    cases hc : calls[j]? with
    | none => simp [hc] at hj
    | some c =>
      simp only [hc, Option.map_some', Option.some.injEq] at hj
      have hmem : c ∈ calls := List.getElem?_mem hc
      have := hnone c hmem
      rw [hj, hflag] at this
      exact absurd this (by decide)
  · intro bc0 u t hne
    obtain ⟨last, _, e⟩ := CreateBloodEntry_bound H bc0 u t hne
    exact ⟨_, _, e, rfl⟩

/-- C11 amended, on the ledger made by appending one record without the flag:
the block at index 1 is not flagged, and only index 0 is. -/
theorem genesis_flag_as_submitted_witness :
    ∃ bc, buildChain plainHashes (lit "t0") [(sampleUnit, lit "t1")] = some bc ∧
      (∃ b, bc.blocks[0 + 1]? = some b ∧ b.Data.IsGenesis = sampleUnit.IsGenesis) ∧
      (∀ (i : Nat) (b : Blocks), bc.blocks[i]? = some b → b.Data.IsGenesis = true → i = 0) ∧
      (∃ resp b, CreateBloodEntry plainHashes (NewBlockchain plainHashes (lit "t0"))
          (some sampleUnitAgain) (lit "t1") =
            some (resp, { blocks := (NewBlockchain plainHashes (lit "t0")).blocks ++ [b] }) ∧
          b.Data.IsGenesis = sampleUnitAgain.IsGenesis) := by
  obtain ⟨bc, hbc, _, h2, h3, h4⟩ :=
    genesis_flag_as_submitted plainHashes (lit "t0") [(sampleUnit, lit "t1")]
  refine ⟨bc, hbc, h2 0 (by decide), h3 ?_, h4 _ sampleUnitAgain (lit "t1")
    (by simp [NewBlockchain])⟩
  intro c hc
  simp only [List.mem_singleton] at hc
  subst hc
  rfl

/-- C12 (digest determinism).  The `Hash` that `GenerateHash` stores is a
function of the block's `Pos`, `TimeStamp`, `Data` and `PrevHash`: two blocks
that agree on these four fields get the same `Hash`, whatever their `Hash`
field held before (and so become equal blocks); `GenerateHash` changes no field
other than `Hash`; and applying it twice gives the block that applying it once
gives. -/
theorem GenerateHash_deterministic (H : Hashes) (b1 b2 : Blocks) (hpos : b1.Pos = b2.Pos)
    (htime : b1.TimeStamp = b2.TimeStamp) (hdata : b1.Data = b2.Data)
    (hprev : b1.PrevHash = b2.PrevHash) :
    (GenerateHash H b1).Hash = (GenerateHash H b2).Hash ∧
    (GenerateHash H b1).Hash =
      hexEncode (H.sha256Sum (fmtD b1.Pos ++ b1.TimeStamp ++ marshalBloodUnit b1.Data ++
        b1.PrevHash)) ∧
    GenerateHash H b1 = GenerateHash H b2 ∧
    ((GenerateHash H b1).Pos = b1.Pos ∧ (GenerateHash H b1).TimeStamp = b1.TimeStamp ∧
      (GenerateHash H b1).Data = b1.Data ∧ (GenerateHash H b1).PrevHash = b1.PrevHash) ∧
    GenerateHash H (GenerateHash H b1) = GenerateHash H b1 := by
  have hblock : GenerateHash H b1 = GenerateHash H b2 := by
    cases b1
    cases b2
    simp only at hpos htime hdata hprev
    subst hpos htime hdata hprev
    rfl
  exact ⟨congrArg Blocks.Hash hblock, rfl, hblock, ⟨rfl, rfl, rfl, rfl⟩, rfl⟩

/-- C12 on two blocks that differ in the stored hash only. -/
theorem GenerateHash_deterministic_witness :
    staleCandidate.Hash ≠ ({ staleCandidate with Hash := lit "other" } : Blocks).Hash ∧
    (GenerateHash plainHashes staleCandidate).Hash =
      (GenerateHash plainHashes { staleCandidate with Hash := lit "other" }).Hash ∧
    GenerateHash plainHashes staleCandidate =
      GenerateHash plainHashes { staleCandidate with Hash := lit "other" } ∧
    GenerateHash plainHashes (GenerateHash plainHashes staleCandidate) =
      GenerateHash plainHashes staleCandidate := by
  have h := GenerateHash_deterministic plainHashes staleCandidate
    { staleCandidate with Hash := lit "other" } rfl rfl rfl rfl
  exact ⟨by decide, h.1, h.2.2.1, h.2.2.2.2⟩

theorem hextable_lowerHex : ∀ i : Fin 16, isLowerHex (hextable i.val) = true := by
  decide

theorem hexEncode_length (l : List Byte) : (hexEncode l).length = 2 * l.length := by
  induction l with
  | nil => rfl
  | cons a l ih =>
    rw [hexEncode_cons, List.length_cons, List.length_cons, List.length_cons, ih]
    omega

theorem hexEncode_lowerHex (l : List Byte) : ∀ c ∈ hexEncode l, isLowerHex c = true := by
  induction l with
  | nil =>
    intro c hc
    simp [hexEncode] at hc
  | cons a l ih =>
    intro c hc
    rw [hexEncode_cons] at hc
    simp only [List.mem_cons] at hc
    rcases hc with rfl | rfl | hc
    · exact hextable_lowerHex ⟨a.val / 16, by omega⟩
    · exact hextable_lowerHex ⟨a.val % 16, by omega⟩
    · exact ih c hc

/-- C13 (fixed-length digest).  With a SHA-256 that returns 32 bytes, the `Hash`
that `GenerateHash` stores in any block is a string of exactly 64 characters,
each one a lowercase hexadecimal digit, whatever the size of the payload: it
is the hex encoding of the 32 digest bytes, two digits per byte. -/
theorem hash_is_64_lower_hex (H : Hashes) (h32 : ∀ s, (H.sha256Sum s).length = 32)
    (b : Blocks) :
    (GenerateHash H b).Hash.length = 64 ∧
    (∀ c ∈ (GenerateHash H b).Hash, isLowerHex c = true) ∧
    (GenerateHash H b).Hash = hexEncode (H.sha256Sum (hashInput b)) := by
  refine ⟨?_, ?_, rfl⟩
  · rw [GenerateHash_Hash, hexEncode_length, h32]
  · rw [GenerateHash_Hash]
    exact hexEncode_lowerHex _

theorem sizedHashes_sha256_length (s : GoString) : (sizedHashes.sha256Sum s).length = 32 := by
  simp [sizedHashes]

set_option maxRecDepth 100000 in
/-- C13 on a digest with 32-byte output and two payloads of different size. -/
theorem hash_is_64_lower_hex_witness :
    (marshalBloodUnit staleCandidate.Data).length ≠
      (marshalBloodUnit Blocks.zero.Data).length ∧
    (GenerateHash sizedHashes staleCandidate).Hash.length = 64 ∧
    (GenerateHash sizedHashes Blocks.zero).Hash.length = 64 ∧
    (∀ c ∈ (GenerateHash sizedHashes staleCandidate).Hash, isLowerHex c = true) :=
  ⟨by decide,
    (hash_is_64_lower_hex sizedHashes sizedHashes_sha256_length staleCandidate).1,
    (hash_is_64_lower_hex sizedHashes sizedHashes_sha256_length Blocks.zero).1,
    (hash_is_64_lower_hex sizedHashes sizedHashes_sha256_length staleCandidate).2.1⟩

theorem unitIDOf_eq (H : Hashes) (u : BloodUnit) :
    unitIDOf H u = hexEncode (H.md5Sum (uniqueStringOf u)) := rfl

/-- C15 as stated fails on the code: donor `D1A` with blood type `B+` and donor
`D1` with blood type `AB+`, on the same day, are different triples, yet the
handler feeds the same string `D1AB+2024-01-01` to the digest and so assigns
the same identifier, with no collision of the digest involved. -/
theorem identifier_input_counterexample :
    (donorD1A.DonorID, donorD1A.BloodType, donorD1A.DonationDate) ≠
      (donorD1.DonorID, donorD1.BloodType, donorD1.DonationDate) ∧
    uniqueStringOf donorD1A = lit "D1AB+2024-01-01" ∧
    uniqueStringOf donorD1 = lit "D1AB+2024-01-01" ∧
    unitIDOf plainHashes donorD1A = unitIDOf plainHashes donorD1 := by
  have h1 : uniqueStringOf donorD1A = lit "D1AB+2024-01-01" := by decide
  have h2 : uniqueStringOf donorD1 = lit "D1AB+2024-01-01" := by decide
  refine ⟨by decide, h1, h2, ?_⟩
  rw [unitIDOf_eq, unitIDOf_eq, h1, h2]

/-- C15, amended.  The string `CreateBloodEntry` feeds to the identifier digest
is the bare concatenation of `DonorID`, `BloodType` and `DonationDate`.  Two
submissions whose triples differ feed different strings when they differ in one
of the three fields only, and also when their donor identifiers have the same
length and their blood types have the same length; two identifiers coincide
only when the strings fed are equal or the digest collides on them. -/
theorem identifier_input_distinct (H : Hashes) (u1 u2 : BloodUnit) :
    (unitIDOf H u1 = hexEncode (H.md5Sum (u1.DonorID ++ u1.BloodType ++ u1.DonationDate))) ∧
    (((u1.BloodType = u2.BloodType ∧ u1.DonationDate = u2.DonationDate) ∨
        (u1.DonorID = u2.DonorID ∧ u1.DonationDate = u2.DonationDate) ∨
        (u1.DonorID = u2.DonorID ∧ u1.BloodType = u2.BloodType)) →
      (u1.DonorID, u1.BloodType, u1.DonationDate) ≠
        (u2.DonorID, u2.BloodType, u2.DonationDate) →
      uniqueStringOf u1 ≠ uniqueStringOf u2) ∧
    (u1.DonorID.length = u2.DonorID.length → u1.BloodType.length = u2.BloodType.length →
      (u1.DonorID, u1.BloodType, u1.DonationDate) ≠
        (u2.DonorID, u2.BloodType, u2.DonationDate) →
      uniqueStringOf u1 ≠ uniqueStringOf u2) ∧
    (unitIDOf H u1 = unitIDOf H u2 →
      uniqueStringOf u1 = uniqueStringOf u2 ∨
        (uniqueStringOf u1 ≠ uniqueStringOf u2 ∧
          H.md5Sum (uniqueStringOf u1) = H.md5Sum (uniqueStringOf u2))) := by
  refine ⟨rfl, ?_, ?_, ?_⟩
  · intro hagree hne heq
    apply hne
    unfold uniqueStringOf at heq
    rcases hagree with ⟨hb, hd⟩ | ⟨ha, hd⟩ | ⟨ha, hb⟩
    · rw [hb, hd] at heq
      have := List.append_cancel_right (List.append_cancel_right heq)
      rw [this, hb, hd]
    · rw [ha, hd] at heq
      have := List.append_cancel_left (List.append_cancel_right heq)
      rw [ha, this, hd]
    · rw [ha, hb] at heq
      have := List.append_cancel_left heq
      rw [ha, hb, this]
  · intro hla hlb hne heq
    apply hne
    unfold uniqueStringOf at heq
    have hlen : (u1.DonorID ++ u1.BloodType).length = (u2.DonorID ++ u2.BloodType).length := by
      rw [List.length_append, List.length_append, hla, hlb]
    obtain ⟨hab, hd⟩ := List.append_inj heq hlen
    obtain ⟨ha, hb⟩ := List.append_inj hab hla
    rw [ha, hb, hd]
  · intro hid
    by_cases heq : uniqueStringOf u1 = uniqueStringOf u2
    · exact Or.inl heq
    · refine Or.inr ⟨heq, ?_⟩
      rw [unitIDOf_eq, unitIDOf_eq] at hid
      exact hexEncode_injective hid

/-- C15 amended, on donations that differ in the donor only, on donations that
differ in donor and blood type of equal lengths, and on the two donations that
get the same identifier because the strings fed are equal. -/
theorem identifier_input_distinct_witness :
    uniqueStringOf sampleUnit ≠ uniqueStringOf { sampleUnit with DonorID := lit "D2" } ∧
    uniqueStringOf sampleUnit ≠
      uniqueStringOf { sampleUnit with DonorID := lit "D2", BloodType := lit "A-" } ∧
    (uniqueStringOf donorD1A = uniqueStringOf donorD1 ∨
      (uniqueStringOf donorD1A ≠ uniqueStringOf donorD1 ∧
        plainHashes.md5Sum (uniqueStringOf donorD1A) =
          plainHashes.md5Sum (uniqueStringOf donorD1))) :=
  ⟨(identifier_input_distinct plainHashes sampleUnit
      { sampleUnit with DonorID := lit "D2" }).2.1 (Or.inl ⟨rfl, rfl⟩) (by decide),
    (identifier_input_distinct plainHashes sampleUnit
      { sampleUnit with DonorID := lit "D2", BloodType := lit "A-" }).2.2.1
        (by decide) (by decide) (by decide),
    (identifier_input_distinct plainHashes donorD1A donorD1).2.2.2 (by decide)⟩

/-- C16.  `validBlock` is not read-only: whenever the linkage check passes it
leaves the candidate with its `Hash` overwritten by the digest recomputed from
its other fields.  So for a candidate that links to the previous block and has
the next position but stores a `Hash` different from the recomputed digest, the
first call answers false and leaves the candidate with the recomputed `Hash`
(the previous block untouched), and a second call on the pair as the first one
left it answers true. -/
theorem validBlock_overwrites_hash (H : Hashes) (candidate previous : Blocks)
    (hlink : previous.Hash = candidate.PrevHash)
    (hpos : candidate.Pos = wrapInt (previous.Pos + 1))
    (hstale : candidate.Hash ≠ (GenerateHash H candidate).Hash) :
    (∀ c p : Blocks, p.Hash = c.PrevHash → (validBlock H c p).2.1 = GenerateHash H c) ∧
    (validBlock H candidate previous).1 = false ∧
    (validBlock H candidate previous).2.1 =
      { candidate with Hash := hexEncode (H.sha256Sum (hashInput candidate)) } ∧
    (validBlock H candidate previous).2.1 ≠ candidate ∧
    (validBlock H candidate previous).2.2 = previous ∧
    (validBlock H (validBlock H candidate previous).2.1
      (validBlock H candidate previous).2.2).1 = true := by
  have hgen : ∀ c p : Blocks, p.Hash = c.PrevHash →
      (validBlock H c p).2.1 = GenerateHash H c := by
    intro c p h
    rw [validBlock_block, if_neg (by simpa using h)]
  refine ⟨hgen, ?_, ?_, ?_, validBlock_prevBlock H candidate previous, ?_⟩
  · rw [← Bool.not_eq_true, validBlock_verdict]
    rintro ⟨_, h2, _⟩
    exact hstale h2.symm
  · rw [hgen candidate previous hlink]
    rfl
  · rw [hgen candidate previous hlink]
    intro h
    exact hstale (congrArg Blocks.Hash h).symm
  · rw [hgen candidate previous hlink, validBlock_prevBlock, validBlock_verdict]
    exact ⟨hlink, rfl, hpos.symm⟩

/-- C16 on a candidate for the position after the zero block that stores the
hash `stale`. -/
theorem validBlock_overwrites_hash_witness :
    (validBlock sizedHashes staleCandidate Blocks.zero).1 = false ∧
    (validBlock sizedHashes staleCandidate Blocks.zero).2.1 =
      { staleCandidate with Hash := hexEncode (sizedHashes.sha256Sum (hashInput staleCandidate)) } ∧
    (validBlock sizedHashes staleCandidate Blocks.zero).2.1 ≠ staleCandidate ∧
    (validBlock sizedHashes staleCandidate Blocks.zero).2.2 = Blocks.zero ∧
    (validBlock sizedHashes (validBlock sizedHashes staleCandidate Blocks.zero).2.1
      (validBlock sizedHashes staleCandidate Blocks.zero).2.2).1 = true :=
  (validBlock_overwrites_hash sizedHashes staleCandidate Blocks.zero rfl (by decide)
    (by decide)).2

/-- C17.  The digest input is a concatenation without separators, so it does not
determine the block's fields: a block with `Pos` 1 and time stamp `23` and a
block with `Pos` 12 and time stamp `3`, with the same payload and previous
hash, have different (`Pos`, `TimeStamp`) pairs, yet `GenerateHash` hashes the
same string for both and stores the same `Hash` in both. -/
theorem concatenation_ambiguity (H : Hashes) (d : BloodUnit) (ph h1 h2 : GoString) :
    ((1 : Int), lit "23") ≠ ((12 : Int), lit "3") ∧
    fmtD 1 ++ lit "23" ++ marshalBloodUnit d ++ ph =
      fmtD 12 ++ lit "3" ++ marshalBloodUnit d ++ ph ∧
    hashInput { Pos := 1, Data := d, Hash := h1, TimeStamp := lit "23", PrevHash := ph } =
      hashInput { Pos := 12, Data := d, Hash := h2, TimeStamp := lit "3", PrevHash := ph } ∧
    (GenerateHash H
        { Pos := 1, Data := d, Hash := h1, TimeStamp := lit "23", PrevHash := ph }).Hash =
      (GenerateHash H
        { Pos := 12, Data := d, Hash := h2, TimeStamp := lit "3", PrevHash := ph }).Hash := by
  have hpre : fmtD 1 ++ lit "23" = fmtD 12 ++ lit "3" := by decide
  have hin : fmtD 1 ++ lit "23" ++ marshalBloodUnit d ++ ph =
      fmtD 12 ++ lit "3" ++ marshalBloodUnit d ++ ph := by
    rw [hpre]
  refine ⟨by decide, hin, hin, ?_⟩
  rw [GenerateHash_Hash, GenerateHash_Hash]
  exact congrArg (fun s => hexEncode (H.sha256Sum s)) hin

/-- C18.  Every ledger reachable from `NewBlockchain` by `AddBlock` calls exists
and is non-empty, so the read of the last block, `blocks[len(blocks)-1]`, is in
range there and `AddBlock` returns a ledger; on the empty ledger the same read
is out of range and `AddBlock` panics. -/
theorem reachable_nonempty (H : Hashes) (t0 : GoString)
    (calls : List (BloodUnit × GoString)) :
    (∃ bc, buildChain H t0 calls = some bc ∧ bc.blocks ≠ [] ∧ 0 < bc.blocks.length ∧
      (∃ last, bc.blocks[bc.blocks.length - 1]? = some last ∧
        bc.blocks.getLast? = some last) ∧
      ∀ (r : BloodUnit) (t : GoString), ∃ bc1, AddBlock H bc r t = some bc1) ∧
    ((([] : List Blocks))[([] : List Blocks).length - 1]? = none ∧
      ([] : List Blocks).getLast? = none ∧
      ∀ (r : BloodUnit) (t : GoString), AddBlock H { blocks := [] } r t = none) := by
  constructor
  · obtain ⟨bc, hbc, hne⟩ := buildChain_isSome H t0 calls
    have hpos : 0 < bc.blocks.length := List.length_pos.mpr hne
    have hlast : bc.blocks.getLast? = bc.blocks[bc.blocks.length - 1]? :=
      List.getLast?_eq_getElem? bc.blocks
    have hget : bc.blocks[bc.blocks.length - 1]? = some bc.blocks[bc.blocks.length - 1] :=
      List.getElem?_eq_getElem (by omega)
    refine ⟨bc, hbc, hne, hpos, ⟨_, hget, hlast.trans hget⟩, ?_⟩
    intro r t
    exact ⟨_, AddBlock_of_getLast H bc r t _ (hlast.trans hget)⟩
  · exact ⟨rfl, rfl, fun _ _ => rfl⟩

end SimpleBlockchain
